import Mathlib

/-!
Shallow embedding of the `ezquadtree` crate (files `src/qt.rs` and
`src/shape.rs`): an axis-aligned rectangle type with containment and
intersection predicates, and a capacity-bounded point quadtree with
`insert`, `remove`, `replace`, `query` and `len`.

Coordinates are `u32` in the source; they are modelled as `Nat` (no
arithmetic in the verified operations can overflow for the in-range
inputs the structure is specified on, and Rust's debug semantics makes
overflow a panic rather than a wrap). The item type is kept generic,
mirroring the `Vector` trait: an embedding-side parameter `pt` stands
for `as_point` and `beq` for the host type's `PartialEq::eq`.
-/

namespace EzQuadTree

/-- `Rectangle` from `src/shape.rs`: `{x, y, w, h}` with `u32` fields. -/
structure Rectangle where
  x : Nat
  y : Nat
  w : Nat
  h : Nat
deriving DecidableEq, Repr

/-- `Rectangle::contains` (`src/shape.rs` lines 32-38): the point must satisfy
`x >= self.x && x < self.x + self.w && y >= self.y && y < self.y + self.h`. -/
def Rectangle.contains (r : Rectangle) (p : Nat × Nat) : Bool :=
  decide (p.1 ≥ r.x) && decide (p.1 < r.x + r.w) &&
  decide (p.2 ≥ r.y) && decide (p.2 < r.y + r.h)

/-- `Rectangle::get_range_x`: the half-open range `x..(x + w)`, as a pair. -/
def Rectangle.getRangeX (r : Rectangle) : Nat × Nat := (r.x, r.x + r.w)

/-- `Rectangle::get_range_y`: the half-open range `y..(y + h)`, as a pair. -/
def Rectangle.getRangeY (r : Rectangle) : Nat × Nat := (r.y, r.y + r.h)

/-- `Rectangle::range_intersects`: swap the two ranges if the first starts
after the second, then report `range1.end > range2.start`. -/
def Rectangle.rangeIntersects (r1 r2 : Nat × Nat) : Bool :=
  if r1.1 > r2.1 then decide (r2.2 > r1.1) else decide (r1.2 > r2.1)

/-- `Rectangle::intersects` (`src/shape.rs` lines 41-62): the x ranges and the
y ranges must both pass `range_intersects`. -/
def Rectangle.intersects (r range : Rectangle) : Bool :=
  Rectangle.rangeIntersects r.getRangeX range.getRangeX &&
  Rectangle.rangeIntersects r.getRangeY range.getRangeY

/-- `QuadTree<T>` from `src/qt.rs`: boundary, capacity, the node's own
points, and an optional array of exactly four children. The `Option` on the
children field is modelled by the two constructors. -/
inductive QuadTree (T : Type) : Type where
  | leaf (boundary : Rectangle) (capacity : Nat) (points : List T)
  | internal (boundary : Rectangle) (capacity : Nat) (points : List T)
      (nw ne sw se : QuadTree T)
deriving Repr

/-- The `boundary` field of a node. -/
def QuadTree.boundary {T : Type} : QuadTree T → Rectangle
  | .leaf b _ _ => b
  | .internal b _ _ _ _ _ _ => b

/-- The `capacity` field of a node. -/
def QuadTree.capacity {T : Type} : QuadTree T → Nat
  | .leaf _ c _ => c
  | .internal _ c _ _ _ _ _ => c

/-- The `points` field of a node. -/
def QuadTree.points {T : Type} : QuadTree T → List T
  | .leaf _ _ ps => ps
  | .internal _ _ ps _ _ _ _ => ps

/-- Whether the `children` field is `Some` (the node has been subdivided). -/
def QuadTree.hasChildren {T : Type} : QuadTree T → Bool
  | .leaf _ _ _ => false
  | .internal _ _ _ _ _ _ _ => true

/-- `QuadTree::new` (`src/qt.rs`): a childless node with no points. -/
def QuadTree.new {T : Type} (boundary : Rectangle) (capacity : Nat) : QuadTree T :=
  .leaf boundary capacity []

/-- The north-west child region built by `QuadTree::subdivide`
(`src/qt.rs` lines 117-134): `Rectangle::new(x, y, w / 2, h / 2)`. -/
def nwRect (b : Rectangle) : Rectangle := ⟨b.x, b.y, b.w / 2, b.h / 2⟩

/-- The north-east child region of `subdivide`: `(x + w / 2, y, w / 2, h / 2)`. -/
def neRect (b : Rectangle) : Rectangle := ⟨b.x + b.w / 2, b.y, b.w / 2, b.h / 2⟩

/-- The south-west child region of `subdivide`: `(x, y + h / 2, w / 2, h / 2)`. -/
def swRect (b : Rectangle) : Rectangle := ⟨b.x, b.y + b.h / 2, b.w / 2, b.h / 2⟩

/-- The south-east child region of `subdivide`: `(x + w / 2, y + h / 2, w / 2, h / 2)`. -/
def seRect (b : Rectangle) : Rectangle := ⟨b.x + b.w / 2, b.y + b.h / 2, b.w / 2, b.h / 2⟩

/-- `QuadTree::subdivide` (`src/qt.rs` lines 117-134): four fresh nodes on the
four half-size regions, in the array order NW, NE, SW, SE. -/
def QuadTree.subdivide {T : Type} (boundary : Rectangle) (capacity : Nat) :
    QuadTree T × QuadTree T × QuadTree T × QuadTree T :=
  (QuadTree.new (nwRect boundary) capacity,
   QuadTree.new (neRect boundary) capacity,
   QuadTree.new (swRect boundary) capacity,
   QuadTree.new (seRect boundary) capacity)

/-- `Vec::contains` on the points list, under the host equality `beq`
(Rust `PartialEq::eq`). -/
def listContains {T : Type} (beq : T → T → Bool) (l : List T) (item : T) : Bool :=
  l.any (fun p => beq p item)

/-- Number of nodes of the tree (used as a termination measure). -/
def QuadTree.size {T : Type} : QuadTree T → Nat
  | .leaf _ _ _ => 1
  | .internal _ _ _ nw ne sw se => 1 + nw.size + ne.size + sw.size + se.size

/-- `QuadTree::len` (`src/qt.rs` lines 244-251): the node's own point count
plus the fold of `len` over the children when they exist. -/
def QuadTree.len {T : Type} : QuadTree T → Nat
  | .leaf _ _ ps => ps.length
  | .internal _ _ ps nw ne sw se => ps.length + (nw.len + ne.len + sw.len + se.len)

/-- All stored items of the tree, a node's own points before its children
and the children in the array order NW, NE, SW, SE. -/
def QuadTree.toList {T : Type} : QuadTree T → List T
  | .leaf _ _ ps => ps
  | .internal _ _ ps nw ne sw se =>
      ps ++ (nw.toList ++ ne.toList ++ sw.toList ++ se.toList)

/-- `contains` forces positive extent: a point is only inside a rectangle of
positive width and height. -/
theorem Rectangle.contains_pos {r : Rectangle} {p : Nat × Nat}
    (h : r.contains p = true) : 0 < r.w ∧ 0 < r.h := by
  simp only [Rectangle.contains, Bool.and_eq_true, decide_eq_true_eq] at h
  omega

/-- `QuadTree::insert` specialised to a freshly created child
(`Self::subdivide` builds children with `QuadTree::new`, so their `points`
list is empty): reject if the region does not contain the point, store the
point if the capacity is positive, and otherwise (capacity zero, so the
empty node is already at capacity) subdivide again. Split out of `insert`
so that the recursion on ever-smaller fresh regions has its own measure. -/
def QuadTree.insertNew {T : Type} (pt : T → Nat × Nat)
    (b : Rectangle) (cap : Nat) (item : T) : QuadTree T × Bool :=
  if hb : b.contains (pt item) = true then
    if 0 < cap then (.leaf b cap [item], true)
    else
      let (nw0, r1) := QuadTree.insertNew pt (nwRect b) cap item
      if r1 then
        (.internal b cap [] nw0 (QuadTree.new (neRect b) cap)
          (QuadTree.new (swRect b) cap) (QuadTree.new (seRect b) cap), true)
      else
        let (ne0, r2) := QuadTree.insertNew pt (neRect b) cap item
        if r2 then
          (.internal b cap [] nw0 ne0
            (QuadTree.new (swRect b) cap) (QuadTree.new (seRect b) cap), true)
        else
          let (sw0, r3) := QuadTree.insertNew pt (swRect b) cap item
          if r3 then
            (.internal b cap [] nw0 ne0 sw0 (QuadTree.new (seRect b) cap), true)
          else
            let (se0, r4) := QuadTree.insertNew pt (seRect b) cap item
            (.internal b cap [] nw0 ne0 sw0 se0, r4)
  else (.leaf b cap [], false)
termination_by b.w + b.h
decreasing_by
  all_goals
    simp only [nwRect, neRect, swRect, seRect]
    have := Rectangle.contains_pos hb
    omega

/-- `QuadTree::insert` (`src/qt.rs` lines 187-204). Reject when the boundary
does not contain the item's point; append when below capacity and the points
do not already contain an equal item; when exactly at capacity, materialise
the children if absent (`get_or_insert_with(subdivide)`) and try them with
`iter_mut().any(...)` in NW, NE, SW, SE order, keeping every child's
mutation; otherwise reject. -/
def QuadTree.insert {T : Type} (beq : T → T → Bool) (pt : T → Nat × Nat) :
    QuadTree T → T → QuadTree T × Bool
  | .leaf b cap pts, item =>
    if b.contains (pt item) = true then
      if pts.length < cap ∧ listContains beq pts item = false then
        (.leaf b cap (pts ++ [item]), true)
      else if pts.length = cap then
        let (nw0, r1) := QuadTree.insertNew pt (nwRect b) cap item
        if r1 then
          (.internal b cap pts nw0 (QuadTree.new (neRect b) cap)
            (QuadTree.new (swRect b) cap) (QuadTree.new (seRect b) cap), true)
        else
          let (ne0, r2) := QuadTree.insertNew pt (neRect b) cap item
          if r2 then
            (.internal b cap pts nw0 ne0
              (QuadTree.new (swRect b) cap) (QuadTree.new (seRect b) cap), true)
          else
            let (sw0, r3) := QuadTree.insertNew pt (swRect b) cap item
            if r3 then
              (.internal b cap pts nw0 ne0 sw0 (QuadTree.new (seRect b) cap), true)
            else
              let (se0, r4) := QuadTree.insertNew pt (seRect b) cap item
              (.internal b cap pts nw0 ne0 sw0 se0, r4)
      else (.leaf b cap pts, false)
    else (.leaf b cap pts, false)
  | .internal b cap pts nw ne sw se, item =>
    if b.contains (pt item) = true then
      if pts.length < cap ∧ listContains beq pts item = false then
        (.internal b cap (pts ++ [item]) nw ne sw se, true)
      else if pts.length = cap then
        let (nw1, r1) := QuadTree.insert beq pt nw item
        if r1 then (.internal b cap pts nw1 ne sw se, true)
        else
          let (ne1, r2) := QuadTree.insert beq pt ne item
          if r2 then (.internal b cap pts nw1 ne1 sw se, true)
          else
            let (sw1, r3) := QuadTree.insert beq pt sw item
            if r3 then (.internal b cap pts nw1 ne1 sw1 se, true)
            else
              let (se1, r4) := QuadTree.insert beq pt se item
              (.internal b cap pts nw1 ne1 sw1 se1, r4)
      else (.internal b cap pts nw ne sw se, false)
    else (.internal b cap pts nw ne sw se, false)

/-- `QuadTree::remove` (`src/qt.rs` lines 207-220): if the node's own points
contain an equal item, keep only the points not equal to it and report true;
otherwise try each existing child in order, returning on the first success
and keeping every child's mutation. -/
def QuadTree.remove {T : Type} (beq : T → T → Bool) :
    QuadTree T → T → QuadTree T × Bool
  | .leaf b cap pts, item =>
    if listContains beq pts item = true then
      (.leaf b cap (pts.filter (fun p => !(beq p item))), true)
    else (.leaf b cap pts, false)
  | .internal b cap pts nw ne sw se, item =>
    if listContains beq pts item = true then
      (.internal b cap (pts.filter (fun p => !(beq p item))) nw ne sw se, true)
    else
      let (nw1, r1) := QuadTree.remove beq nw item
      if r1 then (.internal b cap pts nw1 ne sw se, true)
      else
        let (ne1, r2) := QuadTree.remove beq ne item
        if r2 then (.internal b cap pts nw1 ne1 sw se, true)
        else
          let (sw1, r3) := QuadTree.remove beq sw item
          if r3 then (.internal b cap pts nw1 ne1 sw1 se, true)
          else
            let (se1, r4) := QuadTree.remove beq se item
            (.internal b cap pts nw1 ne1 sw1 se1, r4)

/-- `self.points.iter().position(|x| x.as_point() == item.as_point())`
followed by `self.points.remove(idx)`: the first point whose coordinate
equals the item's, together with the list with that point taken out. -/
def removeFirstByPoint {T : Type} (pt : T → Nat × Nat) (item : T) :
    List T → Option (T × List T)
  | [] => none
  | x :: xs =>
    if pt x = pt item then some (x, xs)
    else
      match removeFirstByPoint pt item xs with
      | some (old, ys) => some (old, x :: ys)
      | none => none

/-- `QuadTree::replace` (`src/qt.rs` lines 170-184): nothing happens when the
boundary does not contain the item's point; else if some own point shares the
item's coordinate, `remove(idx)` it, `push` the new item and return the old
one; else `find_map` over the children in order, keeping every child's
mutation. -/
def QuadTree.replace {T : Type} (pt : T → Nat × Nat) :
    QuadTree T → T → QuadTree T × Option T
  | .leaf b cap pts, item =>
    if b.contains (pt item) = true then
      match removeFirstByPoint pt item pts with
      | some (old, rest) => (.leaf b cap (rest ++ [item]), some old)
      | none => (.leaf b cap pts, none)
    else (.leaf b cap pts, none)
  | .internal b cap pts nw ne sw se, item =>
    if b.contains (pt item) = true then
      match removeFirstByPoint pt item pts with
      | some (old, rest) => (.internal b cap (rest ++ [item]) nw ne sw se, some old)
      | none =>
        let (nw1, r1) := QuadTree.replace pt nw item
        match r1 with
        | some old => (.internal b cap pts nw1 ne sw se, some old)
        | none =>
          let (ne1, r2) := QuadTree.replace pt ne item
          match r2 with
          | some old => (.internal b cap pts nw1 ne1 sw se, some old)
          | none =>
            let (sw1, r3) := QuadTree.replace pt sw item
            match r3 with
            | some old => (.internal b cap pts nw1 ne1 sw1 se, some old)
            | none =>
              let (se1, r4) := QuadTree.replace pt se item
              (.internal b cap pts nw1 ne1 sw1 se1, r4)
    else (.internal b cap pts nw ne sw se, none)

/-- `QuadTree::query` (`src/qt.rs` lines 228-241), with the visitor modelled
as the list of items passed to `func` in call order: the range defaults to
the node's own boundary, the node returns nothing when the range does not
intersect its boundary, and otherwise it reports its own points that the
range contains followed by the children's results in NW, NE, SW, SE order
(each child receives `Some(range)`). -/
def QuadTree.query {T : Type} (pt : T → Nat × Nat) :
    QuadTree T → Option Rectangle → List T
  | .leaf b _ pts, range =>
    let r := range.getD b
    if r.intersects b = true then pts.filter (fun p => r.contains (pt p))
    else []
  | .internal b _ pts nw ne sw se, range =>
    let r := range.getD b
    if r.intersects b = true then
      pts.filter (fun p => r.contains (pt p)) ++
        (nw.query pt (some r) ++ ne.query pt (some r) ++
         sw.query pt (some r) ++ se.query pt (some r))
    else []

/-- Structural invariant of every tree built through the API: the points of a
node lie inside its boundary, and the children of a subdivided node carry
exactly the four regions `subdivide` builds from the parent's boundary. -/
def QuadTree.wf {T : Type} (pt : T → Nat × Nat) : QuadTree T → Bool
  | .leaf b _ pts => pts.all (fun p => b.contains (pt p))
  | .internal b _ pts nw ne sw se =>
    pts.all (fun p => b.contains (pt p)) &&
    decide (nw.boundary = nwRect b) && decide (ne.boundary = neRect b) &&
    decide (sw.boundary = swRect b) && decide (se.boundary = seRect b) &&
    nw.wf pt && ne.wf pt && sw.wf pt && se.wf pt

/-- Folding `insert` over a list of items, collecting each call's boolean
result in order. -/
def QuadTree.insertList {T : Type} (beq : T → T → Bool) (pt : T → Nat × Nat) :
    QuadTree T → List T → QuadTree T × List Bool
  | t, [] => (t, [])
  | t, x :: xs =>
    let (t1, r) := QuadTree.insert beq pt t x
    let (t2, rs) := QuadTree.insertList beq pt t1 xs
    (t2, r :: rs)

/-- A concrete host item type, as in the crate's tests: a payload plus the
two coordinates; `as_point` returns the coordinates and equality compares
all fields (the derived `PartialEq`). -/
structure Item where
  x : Nat
  y : Nat
  payload : Nat
deriving DecidableEq, Repr

/-- `Vector::as_point` for `Item`. -/
def Item.pt (a : Item) : Nat × Nat := (a.x, a.y)

/-- The derived `PartialEq::eq` for `Item`: all fields compared. -/
def itemEq (a b : Item) : Bool :=
  decide (a.x = b.x) && decide (a.y = b.y) && decide (a.payload = b.payload)

/-- Each of the four `subdivide` regions is a subset of its parent: a point
in the north-west child region is in the parent region. -/
theorem nwRect_subset {b : Rectangle} {p : Nat × Nat}
    (h : (nwRect b).contains p = true) : b.contains p = true := by
  simp only [Rectangle.contains, nwRect, Bool.and_eq_true, decide_eq_true_eq] at h ⊢
  omega

/-- A point in the north-east child region is in the parent region. -/
theorem neRect_subset {b : Rectangle} {p : Nat × Nat}
    (h : (neRect b).contains p = true) : b.contains p = true := by
  simp only [Rectangle.contains, neRect, Bool.and_eq_true, decide_eq_true_eq] at h ⊢
  omega

/-- A point in the south-west child region is in the parent region. -/
theorem swRect_subset {b : Rectangle} {p : Nat × Nat}
    (h : (swRect b).contains p = true) : b.contains p = true := by
  simp only [Rectangle.contains, swRect, Bool.and_eq_true, decide_eq_true_eq] at h ⊢
  omega

/-- A point in the south-east child region is in the parent region. -/
theorem seRect_subset {b : Rectangle} {p : Nat × Nat}
    (h : (seRect b).contains p = true) : b.contains p = true := by
  simp only [Rectangle.contains, seRect, Bool.and_eq_true, decide_eq_true_eq] at h ⊢
  omega

/-- Two rectangles that both contain a common point pass `intersects`. -/
theorem Rectangle.intersects_of_common_point {r b : Rectangle} {p : Nat × Nat}
    (hr : r.contains p = true) (hb : b.contains p = true) :
    r.intersects b = true := by
  simp only [Rectangle.contains, Bool.and_eq_true, decide_eq_true_eq] at hr hb
  simp only [Rectangle.intersects, Rectangle.rangeIntersects, Rectangle.getRangeX,
    Rectangle.getRangeY, Bool.and_eq_true]
  constructor <;> split <;> simp <;> omega

/-- Characterisation of `Rectangle::contains` as the half-open box test. -/
theorem Rectangle.contains_iff (r : Rectangle) (px py : Nat) :
    r.contains (px, py) = true ↔
      (r.x ≤ px ∧ px < r.x + r.w ∧ r.y ≤ py ∧ py < r.y + r.h) := by
  simp only [Rectangle.contains, Bool.and_eq_true, decide_eq_true_eq]
  omega

/-- Characterisation of `Rectangle::range_intersects` on nonempty half-open
ranges `[s1, s1+w1)` and `[s2, s2+w2)`. -/
theorem Rectangle.rangeIntersects_iff {s1 w1 s2 w2 : Nat}
    (h1 : 0 < w1) (h2 : 0 < w2) :
    Rectangle.rangeIntersects (s1, s1 + w1) (s2, s2 + w2) = true ↔
      (s1 < s2 + w2 ∧ s2 < s1 + w1) := by
  simp only [Rectangle.rangeIntersects]
  split <;> simp <;> omega

/-- C4. `Rectangle::contains` is the half-open box test on both axes:
true iff `x ≤ px < x + w` and `y ≤ py < y + h`; for the region
`(0,0,10,10)` the points `(0,0)` and `(9,9)` are contained and `(10,10)`
is not. -/
theorem claim_C4_contains_half_open :
    (∀ (r : Rectangle) (px py : Nat),
      r.contains (px, py) = true ↔
        (r.x ≤ px ∧ px < r.x + r.w ∧ r.y ≤ py ∧ py < r.y + r.h)) ∧
    Rectangle.contains ⟨0, 0, 10, 10⟩ (0, 0) = true ∧
    Rectangle.contains ⟨0, 0, 10, 10⟩ (9, 9) = true ∧
    Rectangle.contains ⟨0, 0, 10, 10⟩ (10, 10) = false :=
  ⟨Rectangle.contains_iff, by decide, by decide, by decide⟩

/-- C8 counterexample. `Rectangle::intersects` is not order-independent:
for `a = (5,0,0,10)` and `b = (5,0,5,10)`, `a.intersects(b)` is false while
`b.intersects(a)` is true (the one-sided overlap test does not treat an
empty interval as empty when it starts where the other interval starts). -/
theorem claim_C8_counterexample :
    Rectangle.intersects ⟨5, 0, 0, 10⟩ ⟨5, 0, 5, 10⟩ = false ∧
    Rectangle.intersects ⟨5, 0, 5, 10⟩ ⟨5, 0, 0, 10⟩ = true := by
  decide

/-- C8 (amended). For rectangles of positive width and height,
`Rectangle::intersects` is order-independent and returns true exactly when
the half-open intervals `[x, x+w)` overlap on the x axis and `[y, y+h)`
overlap on the y axis; order-independence can fail when a width or height
is zero. -/
theorem claim_C8_intersects_symm (a b : Rectangle)
    (haw : 0 < a.w) (hah : 0 < a.h) (hbw : 0 < b.w) (hbh : 0 < b.h) :
    a.intersects b = b.intersects a ∧
    (a.intersects b = true ↔
      (a.x < b.x + b.w ∧ b.x < a.x + a.w ∧ a.y < b.y + b.h ∧ b.y < a.y + a.h)) := by
  have hab : a.intersects b = true ↔
      (a.x < b.x + b.w ∧ b.x < a.x + a.w ∧ a.y < b.y + b.h ∧ b.y < a.y + a.h) := by
    simp only [Rectangle.intersects, Rectangle.getRangeX, Rectangle.getRangeY,
      Bool.and_eq_true, Rectangle.rangeIntersects_iff haw hbw,
      Rectangle.rangeIntersects_iff hah hbh]
    omega
  have hba : b.intersects a = true ↔
      (b.x < a.x + a.w ∧ a.x < b.x + b.w ∧ b.y < a.y + a.h ∧ a.y < b.y + b.h) := by
    simp only [Rectangle.intersects, Rectangle.getRangeX, Rectangle.getRangeY,
      Bool.and_eq_true, Rectangle.rangeIntersects_iff hbw haw,
      Rectangle.rangeIntersects_iff hbh hah]
    omega
  refine ⟨Bool.eq_iff_iff.mpr ?_, hab⟩
  rw [hab, hba]
  omega

/-- C8 witness: the amended intersection characterisation applied to the
overlapping rectangles `(0,0,10,10)` and `(5,5,10,10)`. -/
theorem claim_C8_intersects_symm_witness :
    Rectangle.intersects ⟨0, 0, 10, 10⟩ ⟨5, 5, 10, 10⟩ =
      Rectangle.intersects ⟨5, 5, 10, 10⟩ ⟨0, 0, 10, 10⟩ ∧
    (Rectangle.intersects ⟨0, 0, 10, 10⟩ ⟨5, 5, 10, 10⟩ = true ↔
      ((0 : Nat) < 5 + 10 ∧ (5 : Nat) < 0 + 10 ∧ (0 : Nat) < 5 + 10 ∧ (5 : Nat) < 0 + 10)) :=
  claim_C8_intersects_symm ⟨0, 0, 10, 10⟩ ⟨5, 5, 10, 10⟩
    (by decide) (by decide) (by decide) (by decide)

/-- C9 counterexample. The zero-area rectangle `(5,5,0,0)` does intersect
`(0,0,10,10)` (whose interior strictly contains the corner `(5,5)`), and it
does not intersect an identical copy of itself — the opposite of the claim
on both counts. -/
theorem claim_C9_counterexample :
    Rectangle.intersects ⟨5, 5, 0, 0⟩ ⟨0, 0, 10, 10⟩ = true ∧
    Rectangle.intersects ⟨5, 5, 0, 0⟩ ⟨5, 5, 0, 0⟩ = false := by
  decide

/-- C9 (amended). A degenerate (zero-width or zero-height) rectangle
contains no points; `intersects`, however, does not treat it as empty: the
zero-area rectangle `(5,5,0,0)` intersects `(0,0,10,10)` while failing to
intersect an identical degenerate copy of itself. -/
theorem claim_C9_degenerate (r : Rectangle) (h : r.w = 0 ∨ r.h = 0) :
    (∀ p : Nat × Nat, r.contains p = false) ∧
    Rectangle.intersects ⟨5, 5, 0, 0⟩ ⟨0, 0, 10, 10⟩ = true ∧
    Rectangle.intersects ⟨5, 5, 0, 0⟩ ⟨5, 5, 0, 0⟩ = false := by
  refine ⟨fun p => ?_, by decide, by decide⟩
  cases hb : r.contains p with
  | false => rfl
  | true =>
    have h2 := (Rectangle.contains_iff r p.1 p.2).mp hb
    omega

/-- C9 witness: the amended statement applied to the degenerate rectangle
`(5,5,0,0)`, evaluated at the point `(5,5)`. -/
theorem claim_C9_degenerate_witness :
    Rectangle.contains ⟨5, 5, 0, 0⟩ (5, 5) = false :=
  (claim_C9_degenerate ⟨5, 5, 0, 0⟩ (Or.inl rfl)).1 (5, 5)

/-- An accepted insert implies the node's boundary contains the point: every
branch of `insert` whose boundary test fails returns false. -/
theorem QuadTree.insert_accept_boundary {T : Type} (beq : T → T → Bool)
    (pt : T → Nat × Nat) (t : QuadTree T) (item : T)
    (h : (QuadTree.insert beq pt t item).2 = true) :
    t.boundary.contains (pt item) = true := by
  cases t with
  | leaf b cap pts =>
    by_contra hc
    rw [Bool.not_eq_true] at hc
    simp only [QuadTree.boundary] at hc
    simp [QuadTree.insert, hc] at h
  | internal b cap pts nw ne sw se =>
    by_contra hc
    rw [Bool.not_eq_true] at hc
    simp only [QuadTree.boundary] at hc
    simp [QuadTree.insert, hc] at h

/-- C7. `subdivide` builds exactly the four truncating-division child regions
NW `(x, y, w/2, h/2)`, NE `(x+w/2, y, w/2, h/2)`, SW `(x, y+h/2, w/2, h/2)`,
SE `(x+w/2, y+h/2, w/2, h/2)`; the four regions are pairwise disjoint under
half-open containment (no point is contained in more than one of them); and
an insert only ever accepts an item whose point its node's boundary contains,
so during an at-capacity insert at most one child can contain or accept the
item. -/
theorem claim_C7_subdivide_disjoint :
    (∀ (T : Type) (b : Rectangle) (cap : Nat),
      @QuadTree.subdivide T b cap =
        (QuadTree.new ⟨b.x, b.y, b.w / 2, b.h / 2⟩ cap,
         QuadTree.new ⟨b.x + b.w / 2, b.y, b.w / 2, b.h / 2⟩ cap,
         QuadTree.new ⟨b.x, b.y + b.h / 2, b.w / 2, b.h / 2⟩ cap,
         QuadTree.new ⟨b.x + b.w / 2, b.y + b.h / 2, b.w / 2, b.h / 2⟩ cap)) ∧
    (∀ (b : Rectangle) (p : Nat × Nat),
      List.countP (fun r => r.contains p) [nwRect b, neRect b, swRect b, seRect b] ≤ 1) ∧
    (∀ (T : Type) (beq : T → T → Bool) (pt : T → Nat × Nat)
      (t : QuadTree T) (item : T),
      (QuadTree.insert beq pt t item).2 = true →
        t.boundary.contains (pt item) = true) := by
  refine ⟨fun T b cap => rfl, fun b p => ?_,
    fun T beq pt t item => QuadTree.insert_accept_boundary beq pt t item⟩
  simp only [List.countP_cons, List.countP_nil, Rectangle.contains,
    nwRect, neRect, swRect, seRect, Bool.and_eq_true, decide_eq_true_eq]
  split_ifs <;> omega

/-- A rejected `insertNew` leaves only empty fresh nodes behind: its result
tree stores nothing. -/
theorem QuadTree.insertNew_false_len {T : Type} (pt : T → Nat × Nat)
    (b : Rectangle) (cap : Nat) (item : T)
    (h : (QuadTree.insertNew pt b cap item).2 = false) :
    (QuadTree.insertNew pt b cap item).1.len = 0 := by
  induction b, cap, item using QuadTree.insertNew.induct pt with
  | case1 b cap item hb hcap =>
    rw [QuadTree.insertNew] at h
    simp [hb, hcap] at h
  | case2 b cap item hb hcap se0 heq ih =>
    rw [QuadTree.insertNew] at h
    simp [hb, hcap, heq] at h
  | case3 b cap item hb hcap nw0 r1 heq1 hr1 ne0 heq2 ih1 ih2 =>
    rw [QuadTree.insertNew] at h
    simp [hb, hcap, heq1, hr1, heq2] at h
  | case4 b cap item hb hcap nw0 r1 heq1 hr1 ne0 r2 heq2 hr2 sw0 heq3 ih1 ih2 ih3 =>
    rw [QuadTree.insertNew] at h
    simp [hb, hcap, heq1, hr1, heq2, hr2, heq3] at h
  | case5 b cap item hb hcap nw0 r1 heq1 hr1 ne0 r2 heq2 hr2 sw0 r3 heq3 hr3 se0 r4 heq4 ih1 ih2 ih3 ih4 =>
    rw [QuadTree.insertNew] at h ⊢
    simp only [hb, hcap, heq1, heq2, heq3, heq4] at h ⊢
    simp only [dif_pos hb, if_neg hcap, if_neg hr1, if_neg hr2, if_neg hr3] at h ⊢
    have e1 := ih1 (by rw [heq1]; simpa using Bool.not_eq_true r1 ▸ hr1)
    have e2 := ih2 (by rw [heq2]; simpa using Bool.not_eq_true r2 ▸ hr2)
    have e3 := ih3 (by rw [heq3]; simpa using Bool.not_eq_true r3 ▸ hr3)
    have e4 := ih4 (by rw [heq4]; exact h)
    rw [heq1] at e1
    rw [heq2] at e2
    rw [heq3] at e3
    rw [heq4] at e4
    simp [QuadTree.len, e1, e2, e3, e4]
  | case6 b cap item hb =>
    rw [QuadTree.insertNew]
    simp [hb, QuadTree.len]

/-- A rejected insert never changes the stored item count, whatever else it
does to the structure. -/
theorem QuadTree.insert_false_len {T : Type} (beq : T → T → Bool)
    (pt : T → Nat × Nat) (t : QuadTree T) (item : T) :
    (QuadTree.insert beq pt t item).2 = false →
    ((QuadTree.insert beq pt t item).1).len = t.len := by
  induction t with
  | leaf b cap pts =>
    intro h
    simp only [QuadTree.insert] at h ⊢
    by_cases hb : b.contains (pt item) = true
    · simp only [if_pos hb] at h ⊢
      by_cases hcond : pts.length < cap ∧ listContains beq pts item = false
      · simp [if_pos hcond] at h
      · simp only [if_neg hcond] at h ⊢
        by_cases hcap : pts.length = cap
        · simp only [if_pos hcap] at h ⊢
          by_cases r1 : (QuadTree.insertNew pt (nwRect b) cap item).2 = true
          · simp [if_pos r1] at h
          · simp only [if_neg r1] at h ⊢
            by_cases r2 : (QuadTree.insertNew pt (neRect b) cap item).2 = true
            · simp [if_pos r2] at h
            · simp only [if_neg r2] at h ⊢
              by_cases r3 : (QuadTree.insertNew pt (swRect b) cap item).2 = true
              · simp [if_pos r3] at h
              · simp only [if_neg r3] at h ⊢
                have e1 := QuadTree.insertNew_false_len pt (nwRect b) cap item
                  (by rwa [← Bool.not_eq_true])
                have e2 := QuadTree.insertNew_false_len pt (neRect b) cap item
                  (by rwa [← Bool.not_eq_true])
                have e3 := QuadTree.insertNew_false_len pt (swRect b) cap item
                  (by rwa [← Bool.not_eq_true])
                have e4 := QuadTree.insertNew_false_len pt (seRect b) cap item h
                simp [QuadTree.len, e1, e2, e3, e4]
        · simp [if_neg hcap]
    · simp [if_neg hb]
  | internal b cap pts nw ne sw se ihnw ihne ihsw ihse =>
    intro h
    simp only [QuadTree.insert] at h ⊢
    by_cases hb : b.contains (pt item) = true
    · simp only [if_pos hb] at h ⊢
      by_cases hcond : pts.length < cap ∧ listContains beq pts item = false
      · simp [if_pos hcond] at h
      · simp only [if_neg hcond] at h ⊢
        by_cases hcap : pts.length = cap
        · simp only [if_pos hcap] at h ⊢
          by_cases r1 : (QuadTree.insert beq pt nw item).2 = true
          · simp [if_pos r1] at h
          · simp only [if_neg r1] at h ⊢
            by_cases r2 : (QuadTree.insert beq pt ne item).2 = true
            · simp [if_pos r2] at h
            · simp only [if_neg r2] at h ⊢
              by_cases r3 : (QuadTree.insert beq pt sw item).2 = true
              · simp [if_pos r3] at h
              · simp only [if_neg r3] at h ⊢
                have e1 := ihnw (by rwa [← Bool.not_eq_true])
                have e2 := ihne (by rwa [← Bool.not_eq_true])
                have e3 := ihsw (by rwa [← Bool.not_eq_true])
                have e4 := ihse h
                simp [QuadTree.len, e1, e2, e3, e4]
        · simp [if_neg hcap]
    · simp [if_neg hb]

/-- C10. A rejected insert leaves `len()` unchanged, but a rejected insert on
an at-capacity node still materialises the four children: inserting `(0,0)`
into a capacity-1 tree of boundary `(0,0,5,5)` and then attempting `(4,4)`
(inside the boundary but, by truncating subdivision, inside none of the four
child regions) returns false, leaves `len()` at 1, and turns the childless
root into one with four children, all of whose points are empty. -/
theorem claim_C10_insert_false_frame :
    (∀ (T : Type) (beq : T → T → Bool) (pt : T → Nat × Nat)
      (t : QuadTree T) (item : T),
      (QuadTree.insert beq pt t item).2 = false →
        ((QuadTree.insert beq pt t item).1).len = t.len) ∧
    ((QuadTree.insert itemEq Item.pt
        (QuadTree.insert itemEq Item.pt (QuadTree.new ⟨0, 0, 5, 5⟩ 1) ⟨0, 0, 0⟩).1
        ⟨4, 4, 1⟩).2 = false ∧
     (QuadTree.insert itemEq Item.pt (QuadTree.new ⟨0, 0, 5, 5⟩ 1) ⟨0, 0, 0⟩).1.hasChildren
        = false ∧
     (QuadTree.insert itemEq Item.pt
        (QuadTree.insert itemEq Item.pt (QuadTree.new ⟨0, 0, 5, 5⟩ 1) ⟨0, 0, 0⟩).1
        ⟨4, 4, 1⟩).1 =
       QuadTree.internal ⟨0, 0, 5, 5⟩ 1 [⟨0, 0, 0⟩]
         (QuadTree.leaf ⟨0, 0, 2, 2⟩ 1 []) (QuadTree.leaf ⟨2, 0, 2, 2⟩ 1 [])
         (QuadTree.leaf ⟨0, 2, 2, 2⟩ 1 []) (QuadTree.leaf ⟨2, 2, 2, 2⟩ 1 []) ∧
     (QuadTree.insert itemEq Item.pt
        (QuadTree.insert itemEq Item.pt (QuadTree.new ⟨0, 0, 5, 5⟩ 1) ⟨0, 0, 0⟩).1
        ⟨4, 4, 1⟩).1.len = 1) := by
  refine ⟨fun T beq pt t item h => QuadTree.insert_false_len beq pt t item h, ?_, ?_, ?_, ?_⟩ <;>
    simp [QuadTree.insert, QuadTree.insertNew, QuadTree.new, QuadTree.hasChildren,
      QuadTree.len, Rectangle.contains, listContains, itemEq, Item.pt,
      nwRect, neRect, swRect, seRect]

/-- C1 counterexample. In a capacity-1 tree on boundary `(0,0,40,40)`,
inserting the item `(5,5)` and then inserting the very same item again
returns true the second time (the at-capacity path skips the duplicate
check and stores the item in the NW child), and `len()` grows to 2: an
insert at an already-stored location does not fail, and the count
increases. -/
theorem claim_C1_counterexample :
    (QuadTree.insert itemEq Item.pt
      (QuadTree.insert itemEq Item.pt (QuadTree.new ⟨0, 0, 40, 40⟩ 1) ⟨5, 5, 0⟩).1
      ⟨5, 5, 0⟩).2 = true ∧
    (QuadTree.insert itemEq Item.pt
      (QuadTree.insert itemEq Item.pt (QuadTree.new ⟨0, 0, 40, 40⟩ 1) ⟨5, 5, 0⟩).1
      ⟨5, 5, 0⟩).1.len = 2 := by
  constructor <;>
    simp [QuadTree.insert, QuadTree.insertNew, QuadTree.new, QuadTree.len,
      Rectangle.contains, listContains, itemEq, Item.pt,
      nwRect, neRect, swRect, seRect]

/-- C1 (amended). The duplicate check only guards the under-capacity path of
a single node: when a node is below capacity and its own points already hold
an item equal to the new one under the host equality, `insert` fails and
leaves the tree entirely unchanged. (When the node is at capacity the check
is skipped and the same location can be stored again in a descendant,
increasing the count, as the counterexample shows.) -/
theorem claim_C1_insert_duplicate {T : Type} (beq : T → T → Bool)
    (pt : T → Nat × Nat) (t : QuadTree T) (item : T)
    (hlen : t.points.length < t.capacity)
    (hdup : listContains beq t.points item = true) :
    QuadTree.insert beq pt t item = (t, false) := by
  cases t with
  | leaf b cap pts =>
    simp only [QuadTree.points, QuadTree.capacity] at hlen hdup
    simp only [QuadTree.insert]
    by_cases hb : b.contains (pt item) = true
    · simp [if_pos hb, hdup, Nat.ne_of_lt hlen]
    · simp [if_neg hb]
  | internal b cap pts nw ne sw se =>
    simp only [QuadTree.points, QuadTree.capacity] at hlen hdup
    simp only [QuadTree.insert]
    by_cases hb : b.contains (pt item) = true
    · simp [if_pos hb, hdup, Nat.ne_of_lt hlen]
    · simp [if_neg hb]

/-- C1 witness: a below-capacity node already holding `(5,5)` rejects a
second insert of an equal item and is unchanged. -/
theorem claim_C1_insert_duplicate_witness :
    QuadTree.insert itemEq Item.pt (QuadTree.leaf ⟨0, 0, 40, 40⟩ 4 [⟨5, 5, 0⟩]) ⟨5, 5, 0⟩ =
      (QuadTree.leaf ⟨0, 0, 40, 40⟩ 4 [⟨5, 5, 0⟩], false) :=
  claim_C1_insert_duplicate itemEq Item.pt
    (QuadTree.leaf ⟨0, 0, 40, 40⟩ 4 [⟨5, 5, 0⟩]) ⟨5, 5, 0⟩ (by decide) (by decide)

/-- C2. Inserting the nine distinct items `(0,0) … (8,0)` into a fresh tree
of boundary `(0,0,40,40)` and capacity 4 returns true every time; querying
the full boundary afterwards visits exactly the nine items, each exactly
once, and `len()` is 9. -/
theorem claim_C2_round_trip :
    (QuadTree.insertList itemEq Item.pt (QuadTree.new ⟨0, 0, 40, 40⟩ 4)
        ((List.range 9).map (fun i => ⟨i, 0, 7⟩))).2 = List.replicate 9 true ∧
    QuadTree.query Item.pt
        (QuadTree.insertList itemEq Item.pt (QuadTree.new ⟨0, 0, 40, 40⟩ 4)
          ((List.range 9).map (fun i => ⟨i, 0, 7⟩))).1
        (some ⟨0, 0, 40, 40⟩) = (List.range 9).map (fun i => ⟨i, 0, 7⟩) ∧
    (∀ x ∈ (List.range 9).map (fun i => (⟨i, 0, 7⟩ : Item)),
      (QuadTree.query Item.pt
        (QuadTree.insertList itemEq Item.pt (QuadTree.new ⟨0, 0, 40, 40⟩ 4)
          ((List.range 9).map (fun i => ⟨i, 0, 7⟩))).1
        (some ⟨0, 0, 40, 40⟩)).count x = 1) ∧
    (QuadTree.insertList itemEq Item.pt (QuadTree.new ⟨0, 0, 40, 40⟩ 4)
        ((List.range 9).map (fun i => ⟨i, 0, 7⟩))).1.len = 9 := by
  refine ⟨?_, ?_, ?_, ?_⟩ <;>
    simp [QuadTree.insertList, QuadTree.insert, QuadTree.insertNew, QuadTree.new,
      Rectangle.contains, listContains, itemEq, Item.pt, nwRect, neRect, swRect, seRect,
      QuadTree.len, QuadTree.query, Rectangle.intersects, Rectangle.rangeIntersects,
      Rectangle.getRangeX, Rectangle.getRangeY, List.range, List.range.loop,
      List.replicate, List.count_cons, List.count_nil]

/-- `len` counts exactly the items of the traversal list. -/
theorem QuadTree.len_eq_toList_length {T : Type} (t : QuadTree T) :
    t.len = t.toList.length := by
  induction t with
  | leaf b cap pts => simp [QuadTree.len, QuadTree.toList]
  | internal b cap pts nw ne sw se ihnw ihne ihsw ihse =>
    simp [QuadTree.len, QuadTree.toList, ihnw, ihne, ihsw, ihse]
    omega

/-- Unfolding of the invariant on a subdivided node. -/
theorem QuadTree.wf_internal_iff {T : Type} (pt : T → Nat × Nat)
    (b : Rectangle) (cap : Nat) (pts : List T) (nw ne sw se : QuadTree T) :
    (QuadTree.internal b cap pts nw ne sw se).wf pt = true ↔
      ((∀ x ∈ pts, b.contains (pt x) = true) ∧
       nw.boundary = nwRect b ∧ ne.boundary = neRect b ∧
       sw.boundary = swRect b ∧ se.boundary = seRect b ∧
       nw.wf pt = true ∧ ne.wf pt = true ∧ sw.wf pt = true ∧ se.wf pt = true) := by
  simp [QuadTree.wf, List.all_eq_true, and_assoc]

/-- In a well-formed tree every stored item's point lies inside the root's
boundary. -/
theorem QuadTree.wf_mem_boundary {T : Type} (pt : T → Nat × Nat) :
    ∀ (t : QuadTree T), t.wf pt = true →
      ∀ x ∈ t.toList, t.boundary.contains (pt x) = true := by
  intro t
  induction t with
  | leaf b cap pts =>
    intro hwf x hx
    simp only [QuadTree.wf, List.all_eq_true] at hwf
    exact hwf x hx
  | internal b cap pts nw ne sw se ihnw ihne ihsw ihse =>
    intro hwf x hx
    rw [QuadTree.wf_internal_iff] at hwf
    obtain ⟨hpts, hnwb, hneb, hswb, hseb, hnw, hne, hsw, hse⟩ := hwf
    simp only [QuadTree.toList, List.mem_append] at hx
    simp only [QuadTree.boundary]
    rcases hx with (hx | ((hx | hx) | hx) | hx)
    · exact hpts x hx
    · exact nwRect_subset (hnwb ▸ ihnw hnw x hx)
    · exact neRect_subset (hneb ▸ ihne hne x hx)
    · exact swRect_subset (hswb ▸ ihsw hsw x hx)
    · exact seRect_subset (hseb ▸ ihse hse x hx)

/-- On a well-formed tree, `query` with an explicit range returns exactly the
traversal list filtered by range containment: the pruning test never hides an
item whose point the range contains. -/
theorem QuadTree.query_eq_filter {T : Type} (pt : T → Nat × Nat) :
    ∀ (t : QuadTree T), t.wf pt = true → ∀ (r : Rectangle),
      t.query pt (some r) = t.toList.filter (fun p => r.contains (pt p)) := by
  intro t
  induction t with
  | leaf b cap pts =>
    intro hwf r
    simp only [QuadTree.wf, List.all_eq_true] at hwf
    by_cases hi : r.intersects b = true
    · simp [QuadTree.query, QuadTree.toList, hi]
    · simp only [QuadTree.query, Option.getD_some, if_neg hi, QuadTree.toList]
      symm
      rw [List.filter_eq_nil_iff]
      intro x hx hrx
      exact hi (Rectangle.intersects_of_common_point hrx (hwf x hx))
  | internal b cap pts nw ne sw se ihnw ihne ihsw ihse =>
    intro hwf r
    have hwfi := (QuadTree.wf_internal_iff pt b cap pts nw ne sw se).mp hwf
    obtain ⟨hpts, hnwb, hneb, hswb, hseb, hnw, hne, hsw, hse⟩ := hwfi
    by_cases hi : r.intersects b = true
    · simp only [QuadTree.query, Option.getD_some, if_pos hi, QuadTree.toList,
        List.filter_append, ihnw hnw r, ihne hne r, ihsw hsw r, ihse hse r]
    · simp only [QuadTree.query, Option.getD_some, if_neg hi, QuadTree.toList]
      symm
      rw [List.filter_eq_nil_iff]
      intro x hx hrx
      have hb := QuadTree.wf_mem_boundary pt (QuadTree.internal b cap pts nw ne sw se)
        hwf x (by simpa [QuadTree.toList] using hx)
      simp only [QuadTree.boundary] at hb
      exact hi (Rectangle.intersects_of_common_point hrx hb)

/-- C6. On a well-formed tree (the invariant every API-built tree keeps),
`query` with a range visits exactly the stored items whose point lies in the
range, in traversal order (a node's points before its children, children NW,
NE, SW, SE); an omitted range behaves as the node's own boundary; and when
the range does not intersect the boundary nothing is visited — for a
subdivided node this holds whatever the children are, so none is recursed
into. -/
theorem claim_C6_query_contract {T : Type} (pt : T → Nat × Nat)
    (t : QuadTree T) (r : Rectangle) (hwf : t.wf pt = true) :
    t.query pt (some r) = t.toList.filter (fun p => r.contains (pt p)) ∧
    t.query pt none = t.query pt (some t.boundary) ∧
    (r.intersects t.boundary = false → t.query pt (some r) = []) ∧
    (∀ (b : Rectangle) (cap : Nat) (pts : List T) (nw ne sw se : QuadTree T),
      r.intersects b = false →
        QuadTree.query pt (QuadTree.internal b cap pts nw ne sw se) (some r) = []) := by
  refine ⟨QuadTree.query_eq_filter pt t hwf r, ?_, ?_, ?_⟩
  · cases t <;> rfl
  · intro hfalse
    cases t <;> simp_all [QuadTree.query, QuadTree.boundary]
  · intro b cap pts nw ne sw se hfalse
    simp [QuadTree.query, hfalse]

/-- C6 witness: the query contract applied to a concrete one-node tree and a
range covering part of it. -/
theorem claim_C6_query_contract_witness :
    QuadTree.query Item.pt (QuadTree.leaf ⟨0, 0, 40, 40⟩ 4 [⟨1, 2, 3⟩, ⟨30, 30, 4⟩])
        (some ⟨0, 0, 10, 10⟩) =
      (QuadTree.leaf ⟨0, 0, 40, 40⟩ 4
        [⟨1, 2, 3⟩, ⟨30, 30, 4⟩]).toList.filter
          (fun p => Rectangle.contains ⟨0, 0, 10, 10⟩ (Item.pt p)) :=
  (claim_C6_query_contract Item.pt
    (QuadTree.leaf ⟨0, 0, 40, 40⟩ 4 [⟨1, 2, 3⟩, ⟨30, 30, 4⟩]) ⟨0, 0, 10, 10⟩
    (by decide)).1

/-- Membership in a subdivided node's traversal list, flattened. -/
theorem QuadTree.mem_toList_internal {T : Type} (x : T) (b : Rectangle)
    (cap : Nat) (pts : List T) (nw ne sw se : QuadTree T) :
    x ∈ (QuadTree.internal b cap pts nw ne sw se).toList ↔
      (x ∈ pts ∨ x ∈ nw.toList ∨ x ∈ ne.toList ∨ x ∈ sw.toList ∨ x ∈ se.toList) := by
  simp [QuadTree.toList, List.mem_append, or_assoc]

/-- The coordinate search fails exactly when no point matches. -/
theorem removeFirstByPoint_none_iff {T : Type} (pt : T → Nat × Nat) (item : T) :
    ∀ (l : List T), removeFirstByPoint pt item l = none ↔
      ∀ x ∈ l, pt x ≠ pt item := by
  intro l
  induction l with
  | nil => simp [removeFirstByPoint]
  | cons x xs ih =>
    by_cases hx : pt x = pt item
    · simp [removeFirstByPoint, hx]
    · rcases h : removeFirstByPoint pt item xs with _ | ⟨old, ys⟩
      · simp only [removeFirstByPoint, if_neg hx, h, List.forall_mem_cons]
        simp [hx]
        exact ih.mp h
      · simp only [removeFirstByPoint, if_neg hx, h, List.forall_mem_cons]
        constructor
        · intro habs
          exact absurd habs (by simp)
        · rintro ⟨-, hall⟩
          have hnone : removeFirstByPoint pt item xs = none := ih.mpr hall
          rw [h] at hnone
          exact absurd hnone (by simp)

/-- A successful coordinate search returns a matching point and the list is a
permutation of that point put back in front of the remainder. -/
theorem removeFirstByPoint_some {T : Type} (pt : T → Nat × Nat) (item : T) :
    ∀ (l : List T) (old : T) (ys : List T),
      removeFirstByPoint pt item l = some (old, ys) →
      pt old = pt item ∧ l.Perm (old :: ys) := by
  intro l
  induction l with
  | nil => intro old ys h; simp [removeFirstByPoint] at h
  | cons x xs ih =>
    intro old ys h
    by_cases hx : pt x = pt item
    · simp only [removeFirstByPoint, if_pos hx, Option.some.injEq, Prod.mk.injEq] at h
      obtain ⟨rfl, rfl⟩ := h
      exact ⟨hx, List.Perm.refl _⟩
    · simp only [removeFirstByPoint, if_neg hx] at h
      rcases h2 : removeFirstByPoint pt item xs with _ | ⟨o, zs⟩
      · rw [h2] at h
        simp at h
      · rw [h2] at h
        simp only [Option.some.injEq, Prod.mk.injEq] at h
        obtain ⟨rfl, rfl⟩ := h
        obtain ⟨hpt, hperm⟩ := ih o zs h2
        exact ⟨hpt, (hperm.cons x).trans (List.Perm.swap o x zs)⟩

/-- A `replace` that reports nothing has changed nothing. -/
theorem QuadTree.replace_none_eq {T : Type} (pt : T → Nat × Nat) :
    ∀ (t : QuadTree T) (item : T), (QuadTree.replace pt t item).2 = none →
      (QuadTree.replace pt t item).1 = t := by
  intro t
  induction t with
  | leaf b cap pts =>
    intro item h
    simp only [QuadTree.replace] at h ⊢
    by_cases hb : b.contains (pt item) = true
    · simp only [if_pos hb] at h ⊢
      rcases hr : removeFirstByPoint pt item pts with _ | ⟨old, rest⟩
      · simp [hr]
      · simp only [hr] at h
        exact absurd h (by simp)
    · simp [if_neg hb]
  | internal b cap pts nw ne sw se ihnw ihne ihsw ihse =>
    intro item h
    simp only [QuadTree.replace] at h ⊢
    by_cases hb : b.contains (pt item) = true
    · simp only [if_pos hb] at h ⊢
      rcases hr : removeFirstByPoint pt item pts with _ | ⟨old, rest⟩
      · simp only [hr] at h ⊢
        rcases h1 : (QuadTree.replace pt nw item).2 with _ | o1
        · simp only [h1] at h ⊢
          rcases h2 : (QuadTree.replace pt ne item).2 with _ | o2
          · simp only [h2] at h ⊢
            rcases h3 : (QuadTree.replace pt sw item).2 with _ | o3
            · simp only [h3] at h ⊢
              rcases h4 : (QuadTree.replace pt se item).2 with _ | o4
              · simp only [h4] at h ⊢
                rw [ihnw item h1, ihne item h2, ihsw item h3, ihse item h4]
              · simp only [h4] at h
                exact absurd h (by simp)
            · simp only [h3] at h
              exact absurd h (by simp)
          · simp only [h2] at h
            exact absurd h (by simp)
        · simp only [h1] at h
          exact absurd h (by simp)
      · simp only [hr] at h
        exact absurd h (by simp)
    · simp [if_neg hb]

/-- When no stored point of the subtree shares the item's coordinate,
`replace` returns nothing and leaves the tree untouched. -/
theorem QuadTree.replace_no_match {T : Type} (pt : T → Nat × Nat) :
    ∀ (t : QuadTree T) (item : T),
      (∀ x ∈ t.toList, pt x ≠ pt item) →
      QuadTree.replace pt t item = (t, none) := by
  intro t
  induction t with
  | leaf b cap pts =>
    intro item hno
    have hrn : removeFirstByPoint pt item pts = none :=
      (removeFirstByPoint_none_iff pt item pts).mpr
        (fun x hx => hno x (by simpa [QuadTree.toList] using hx))
    simp only [QuadTree.replace]
    by_cases hb : b.contains (pt item) = true
    · simp [if_pos hb, hrn]
    · simp [if_neg hb]
  | internal b cap pts nw ne sw se ihnw ihne ihsw ihse =>
    intro item hno
    have hex : ∀ x, (x ∈ pts ∨ x ∈ nw.toList ∨ x ∈ ne.toList ∨
        x ∈ sw.toList ∨ x ∈ se.toList) → pt x ≠ pt item :=
      fun x hx => hno x ((QuadTree.mem_toList_internal x b cap pts nw ne sw se).mpr hx)
    have hrn : removeFirstByPoint pt item pts = none :=
      (removeFirstByPoint_none_iff pt item pts).mpr (fun x hx => hex x (Or.inl hx))
    have e1 := ihnw item (fun x hx => hex x (Or.inr (Or.inl hx)))
    have e2 := ihne item (fun x hx => hex x (Or.inr (Or.inr (Or.inl hx))))
    have e3 := ihsw item (fun x hx => hex x (Or.inr (Or.inr (Or.inr (Or.inl hx)))))
    have e4 := ihse item (fun x hx => hex x (Or.inr (Or.inr (Or.inr (Or.inr hx)))))
    simp only [QuadTree.replace]
    by_cases hb : b.contains (pt item) = true
    · simp [if_pos hb, hrn, e1, e2, e3, e4]
    · simp [if_neg hb]

/-- Permutation congruence for replacing one chunk of an append, used to move
the removed and the inserted item across a node's traversal list. -/
theorem perm_replace_chunk {T : Type} {a b : T} {l1 l2 : List T}
    (pre post : List T) (h : (a :: l1).Perm (b :: l2)) :
    (a :: (pre ++ l1 ++ post)).Perm (b :: (pre ++ l2 ++ post)) := by
  have h2 : ((a :: l1) ++ post).Perm ((b :: l2) ++ post) := List.Perm.append_right post h
  have h3 : (pre ++ ((a :: l1) ++ post)).Perm (pre ++ ((b :: l2) ++ post)) :=
    List.Perm.append_left pre h2
  have h4 : (a :: (pre ++ (l1 ++ post))).Perm (b :: (pre ++ (l2 ++ post))) :=
    (List.perm_middle.symm.trans h3).trans List.perm_middle
  simpa [List.append_assoc] using h4

/-- Removing the first coordinate match and pushing the new item permutes the
node's points into the new item in front of the old points with the match
taken out. -/
theorem replace_points_perm {T : Type} {pt : T → Nat × Nat} {item old : T}
    {pts rest : List T} (hr : removeFirstByPoint pt item pts = some (old, rest)) :
    (old :: (rest ++ [item])).Perm (item :: pts) := by
  obtain ⟨-, hperm⟩ := removeFirstByPoint_some pt item pts old rest hr
  have s1 : (old :: (rest ++ [item])).Perm (old :: (item :: rest)) :=
    List.Perm.cons old (List.perm_append_singleton item rest)
  have s2 : (old :: item :: rest).Perm (item :: old :: rest) :=
    List.Perm.swap item old rest
  have s3 : (item :: old :: rest).Perm (item :: pts) :=
    List.Perm.cons item hperm.symm
  exact (s1.trans s2).trans s3

/-- On a well-formed tree holding a point with the item's coordinate,
`replace` succeeds: it returns a stored item with that coordinate, stores the
new item, and the result holds the same items with the returned one swapped
out for the new one. -/
theorem QuadTree.replace_success {T : Type} (pt : T → Nat × Nat) :
    ∀ (t : QuadTree T) (item : T), t.wf pt = true →
      (∃ x ∈ t.toList, pt x = pt item) →
      ∃ old, pt old = pt item ∧ old ∈ t.toList ∧
        (QuadTree.replace pt t item).2 = some old ∧
        item ∈ ((QuadTree.replace pt t item).1).toList ∧
        (old :: ((QuadTree.replace pt t item).1).toList).Perm (item :: t.toList) := by
  intro t
  induction t with
  | leaf b cap pts =>
    intro item hwf hex
    obtain ⟨x, hx, hptx⟩ := hex
    simp only [QuadTree.toList] at hx
    have hb : b.contains (pt item) = true := by
      have hm := QuadTree.wf_mem_boundary pt _ hwf x (by simpa [QuadTree.toList] using hx)
      simpa [QuadTree.boundary, hptx] using hm
    rcases hr : removeFirstByPoint pt item pts with _ | ⟨old, rest⟩
    · exact absurd hptx ((removeFirstByPoint_none_iff pt item pts).mp hr x hx)
    · obtain ⟨hold, hperm⟩ := removeFirstByPoint_some pt item pts old rest hr
      refine ⟨old, hold, ?_, ?_, ?_, ?_⟩
      · simp only [QuadTree.toList]
        exact hperm.mem_iff.mpr (List.mem_cons_self old rest)
      · simp [QuadTree.replace, hb, hr]
      · simp [QuadTree.replace, hb, hr, QuadTree.toList]
      · simp only [QuadTree.replace, if_pos hb, hr, QuadTree.toList]
        exact replace_points_perm hr
  | internal b cap pts nw ne sw se ihnw ihne ihsw ihse =>
    intro item hwf hex
    obtain ⟨hpts, hnwb, hneb, hswb, hseb, hnw, hne, hsw, hse⟩ :=
      (QuadTree.wf_internal_iff pt b cap pts nw ne sw se).mp hwf
    obtain ⟨x, hx, hptx⟩ := hex
    have hb : b.contains (pt item) = true := by
      have hm := QuadTree.wf_mem_boundary pt _ hwf x hx
      simpa [QuadTree.boundary, hptx] using hm
    rcases hr : removeFirstByPoint pt item pts with _ | ⟨old, rest⟩
    · -- no match among this node's own points: go to the children
      have hrn := (removeFirstByPoint_none_iff pt item pts).mp hr
      by_cases hexnw : ∃ y ∈ nw.toList, pt y = pt item
      · obtain ⟨old, hold, hmem, hres, hitem, hperm⟩ := ihnw item hnw hexnw
        refine ⟨old, hold, ?_, ?_, ?_, ?_⟩
        · exact (QuadTree.mem_toList_internal old b cap pts nw ne sw se).mpr
            (Or.inr (Or.inl hmem))
        · simp [QuadTree.replace, hb, hr, hres]
        · simp only [QuadTree.replace, if_pos hb, hr, hres]
          exact (QuadTree.mem_toList_internal item b cap pts _ ne sw se).mpr
            (Or.inr (Or.inl hitem))
        · simp only [QuadTree.replace, if_pos hb, hr, hres, QuadTree.toList]
          simpa [List.append_assoc] using
            perm_replace_chunk pts (ne.toList ++ (sw.toList ++ se.toList)) hperm
      · have hnwno : QuadTree.replace pt nw item = (nw, none) :=
          QuadTree.replace_no_match pt nw item (fun y hy hpt => hexnw ⟨y, hy, hpt⟩)
        by_cases hexne : ∃ y ∈ ne.toList, pt y = pt item
        · obtain ⟨old, hold, hmem, hres, hitem, hperm⟩ := ihne item hne hexne
          refine ⟨old, hold, ?_, ?_, ?_, ?_⟩
          · exact (QuadTree.mem_toList_internal old b cap pts nw ne sw se).mpr
              (Or.inr (Or.inr (Or.inl hmem)))
          · simp [QuadTree.replace, hb, hr, hnwno, hres]
          · simp only [QuadTree.replace, if_pos hb, hr, hnwno, hres]
            exact (QuadTree.mem_toList_internal item b cap pts nw _ sw se).mpr
              (Or.inr (Or.inr (Or.inl hitem)))
          · simp only [QuadTree.replace, if_pos hb, hr, hnwno, hres, QuadTree.toList]
            simpa [List.append_assoc] using
              perm_replace_chunk (pts ++ nw.toList) (sw.toList ++ se.toList) hperm
        · have hneno : QuadTree.replace pt ne item = (ne, none) :=
            QuadTree.replace_no_match pt ne item (fun y hy hpt => hexne ⟨y, hy, hpt⟩)
          by_cases hexsw : ∃ y ∈ sw.toList, pt y = pt item
          · obtain ⟨old, hold, hmem, hres, hitem, hperm⟩ := ihsw item hsw hexsw
            refine ⟨old, hold, ?_, ?_, ?_, ?_⟩
            · exact (QuadTree.mem_toList_internal old b cap pts nw ne sw se).mpr
                (Or.inr (Or.inr (Or.inr (Or.inl hmem))))
            · simp [QuadTree.replace, hb, hr, hnwno, hneno, hres]
            · simp only [QuadTree.replace, if_pos hb, hr, hnwno, hneno, hres]
              exact (QuadTree.mem_toList_internal item b cap pts nw ne _ se).mpr
                (Or.inr (Or.inr (Or.inr (Or.inl hitem))))
            · simp only [QuadTree.replace, if_pos hb, hr, hnwno, hneno, hres,
                QuadTree.toList]
              simpa [List.append_assoc] using
                perm_replace_chunk (pts ++ nw.toList ++ ne.toList) se.toList hperm
          · have hswno : QuadTree.replace pt sw item = (sw, none) :=
              QuadTree.replace_no_match pt sw item (fun y hy hpt => hexsw ⟨y, hy, hpt⟩)
            have hexse : ∃ y ∈ se.toList, pt y = pt item := by
              rcases (QuadTree.mem_toList_internal x b cap pts nw ne sw se).mp hx with
                hx | hx | hx | hx | hx
              · exact absurd hptx (hrn x hx)
              · exact absurd ⟨x, hx, hptx⟩ hexnw
              · exact absurd ⟨x, hx, hptx⟩ hexne
              · exact absurd ⟨x, hx, hptx⟩ hexsw
              · exact ⟨x, hx, hptx⟩
            obtain ⟨old, hold, hmem, hres, hitem, hperm⟩ := ihse item hse hexse
            refine ⟨old, hold, ?_, ?_, ?_, ?_⟩
            · exact (QuadTree.mem_toList_internal old b cap pts nw ne sw se).mpr
                (Or.inr (Or.inr (Or.inr (Or.inr hmem))))
            · simp [QuadTree.replace, hb, hr, hnwno, hneno, hswno, hres]
            · simp only [QuadTree.replace, if_pos hb, hr, hnwno, hneno, hswno, hres]
              exact (QuadTree.mem_toList_internal item b cap pts nw ne sw _).mpr
                (Or.inr (Or.inr (Or.inr (Or.inr hitem))))
            · simp only [QuadTree.replace, if_pos hb, hr, hnwno, hneno, hswno, hres,
                QuadTree.toList]
              simpa [List.append_assoc] using
                perm_replace_chunk (pts ++ nw.toList ++ ne.toList ++ sw.toList) [] hperm
    · obtain ⟨hold, hperm⟩ := removeFirstByPoint_some pt item pts old rest hr
      refine ⟨old, hold, ?_, ?_, ?_, ?_⟩
      · exact (QuadTree.mem_toList_internal old b cap pts nw ne sw se).mpr
          (Or.inl (hperm.mem_iff.mpr (List.mem_cons_self old rest)))
      · simp [QuadTree.replace, hb, hr]
      · simp [QuadTree.replace, hb, hr, QuadTree.toList]
      · simp only [QuadTree.replace, if_pos hb, hr, QuadTree.toList]
        have key := replace_points_perm hr
        simpa [List.append_assoc] using
          perm_replace_chunk [] (nw.toList ++ ne.toList ++ sw.toList ++ se.toList) key

/-- C3. On a well-formed tree, `replace` returns nothing and leaves the tree
unchanged when the boundary does not contain the item's point or when no
stored item shares its coordinate (so it never inserts a new location and
never increases `len()`); and when some stored item does share the
coordinate, a stored item with that coordinate is removed and returned, the
new item is stored, `len()` is unchanged, and the stored items are exactly
the old ones with the returned item swapped for the new one. -/
theorem claim_C3_replace_upsert {T : Type} (pt : T → Nat × Nat)
    (t : QuadTree T) (item : T) (hwf : t.wf pt = true) :
    ((t.boundary.contains (pt item) = false ∨ ∀ x ∈ t.toList, pt x ≠ pt item) →
      QuadTree.replace pt t item = (t, none)) ∧
    ((∃ x ∈ t.toList, pt x = pt item) →
      ∃ old, pt old = pt item ∧ old ∈ t.toList ∧
        (QuadTree.replace pt t item).2 = some old ∧
        item ∈ ((QuadTree.replace pt t item).1).toList ∧
        ((QuadTree.replace pt t item).1).len = t.len ∧
        (old :: ((QuadTree.replace pt t item).1).toList).Perm (item :: t.toList)) := by
  constructor
  · rintro (hbf | hno)
    · cases t with
      | leaf b cap pts =>
        simp only [QuadTree.boundary] at hbf
        simp [QuadTree.replace, hbf]
      | internal b cap pts nw ne sw se =>
        simp only [QuadTree.boundary] at hbf
        simp [QuadTree.replace, hbf]
    · exact QuadTree.replace_no_match pt t item hno
  · intro hex
    obtain ⟨old, h1, h2, h3, h4, h5⟩ := QuadTree.replace_success pt t item hwf hex
    refine ⟨old, h1, h2, h3, h4, ?_, h5⟩
    have hlen := h5.length_eq
    simp only [List.length_cons] at hlen
    rw [QuadTree.len_eq_toList_length, QuadTree.len_eq_toList_length]
    omega

/-- C3 witness: on a concrete one-node tree storing `(5,5)`, a `replace`
whose point matches nothing returns none and leaves the tree unchanged. -/
theorem claim_C3_replace_upsert_witness :
    QuadTree.replace Item.pt (QuadTree.leaf ⟨0, 0, 40, 40⟩ 4 [⟨5, 5, 0⟩]) ⟨10, 10, 9⟩ =
      (QuadTree.leaf ⟨0, 0, 40, 40⟩ 4 [⟨5, 5, 0⟩], none) :=
  (claim_C3_replace_upsert Item.pt (QuadTree.leaf ⟨0, 0, 40, 40⟩ 4 [⟨5, 5, 0⟩])
    ⟨10, 10, 9⟩ (by decide)).1 (Or.inr (by decide))

/-- No node of the tree holds more than one point equal (under the host
equality) to `item`. Trees built by inserts alone satisfy this; `replace`
can break it. -/
def QuadTree.nodeMatchBound {T : Type} (beq : T → T → Bool) (item : T) :
    QuadTree T → Bool
  | .leaf _ _ pts => decide (pts.countP (fun p => beq p item) ≤ 1)
  | .internal _ _ pts nw ne sw se =>
    decide (pts.countP (fun p => beq p item) ≤ 1) &&
    nodeMatchBound beq item nw && nodeMatchBound beq item ne &&
    nodeMatchBound beq item sw && nodeMatchBound beq item se

/-- Filtering out the matches of a predicate that holds exactly once on the
list shortens it by exactly one. -/
theorem filter_not_length {T : Type} (p : T → Bool) (l : List T)
    (hcount : l.countP p ≤ 1) (hex : ∃ x ∈ l, p x = true) :
    (l.filter (fun a => !p a)).length + 1 = l.length := by
  have h1 : 0 < l.countP p := List.countP_pos_iff.mpr hex
  have h3 : (l.filter (fun a => !p a)).length = l.countP (fun a => !p a) :=
    (List.countP_eq_length_filter _ _).symm
  have h4 := List.length_eq_countP_add_countP p l
  have h5 : l.countP (fun a => decide ¬p a = true) = l.countP (fun a => !p a) := by
    apply List.countP_congr
    intro a _
    cases hpa : p a <;> simp [hpa]
  omega

/-- When no stored item equals the argument, `remove` reports false and
leaves the tree untouched. -/
theorem QuadTree.remove_no_match {T : Type} (beq : T → T → Bool) :
    ∀ (t : QuadTree T) (item : T),
      (∀ x ∈ t.toList, beq x item = false) →
      QuadTree.remove beq t item = (t, false) := by
  intro t
  induction t with
  | leaf b cap pts =>
    intro item hno
    have hlc : listContains beq pts item = false := by
      simp only [listContains, List.any_eq_false]
      intro x hx
      simp [hno x (by simpa [QuadTree.toList] using hx)]
    simp [QuadTree.remove, hlc]
  | internal b cap pts nw ne sw se ihnw ihne ihsw ihse =>
    intro item hno
    have hmem : ∀ x, (x ∈ pts ∨ x ∈ nw.toList ∨ x ∈ ne.toList ∨
        x ∈ sw.toList ∨ x ∈ se.toList) → beq x item = false :=
      fun x hx => hno x ((QuadTree.mem_toList_internal x b cap pts nw ne sw se).mpr hx)
    have hlc : listContains beq pts item = false := by
      simp only [listContains, List.any_eq_false]
      intro x hx
      simp [hmem x (Or.inl hx)]
    have e1 := ihnw item (fun x hx => hmem x (Or.inr (Or.inl hx)))
    have e2 := ihne item (fun x hx => hmem x (Or.inr (Or.inr (Or.inl hx))))
    have e3 := ihsw item (fun x hx => hmem x (Or.inr (Or.inr (Or.inr (Or.inl hx)))))
    have e4 := ihse item (fun x hx => hmem x (Or.inr (Or.inr (Or.inr (Or.inr hx)))))
    simp [QuadTree.remove, hlc, e1, e2, e3, e4]

/-- When some stored item equals the argument and no node holds two equal
copies, `remove` succeeds and shrinks `len` by exactly one. -/
theorem QuadTree.remove_success {T : Type} (beq : T → T → Bool) :
    ∀ (t : QuadTree T) (item : T),
      QuadTree.nodeMatchBound beq item t = true →
      (∃ x ∈ t.toList, beq x item = true) →
      (QuadTree.remove beq t item).2 = true ∧
      ((QuadTree.remove beq t item).1).len + 1 = t.len := by
  intro t
  induction t with
  | leaf b cap pts =>
    intro item hbound hex
    simp only [QuadTree.toList] at hex
    have hlc : listContains beq pts item = true := by
      simpa only [listContains, List.any_eq_true] using hex
    simp only [QuadTree.nodeMatchBound, decide_eq_true_eq] at hbound
    refine ⟨by simp [QuadTree.remove, hlc], ?_⟩
    simp only [QuadTree.remove, if_pos hlc, QuadTree.len]
    exact filter_not_length _ pts hbound hex
  | internal b cap pts nw ne sw se ihnw ihne ihsw ihse =>
    intro item hbound hex
    simp only [QuadTree.nodeMatchBound, Bool.and_eq_true, decide_eq_true_eq] at hbound
    obtain ⟨⟨⟨⟨hbp, hbnw⟩, hbne⟩, hbsw⟩, hbse⟩ := hbound
    by_cases hlc : listContains beq pts item = true
    · refine ⟨by simp [QuadTree.remove, hlc], ?_⟩
      simp only [QuadTree.remove, if_pos hlc, QuadTree.len]
      have hexp : ∃ x ∈ pts, beq x item = true := by
        simpa only [listContains, List.any_eq_true] using hlc
      have hfl : (pts.filter (fun p => !beq p item)).length + 1 = pts.length := by
        simpa using filter_not_length (fun p => beq p item) pts hbp hexp
      omega
    · rw [Bool.not_eq_true] at hlc
      have hnop : ∀ x ∈ pts, beq x item = false := by
        intro x hx
        have := (List.any_eq_false.mp (by simpa only [listContains] using hlc)) x hx
        simpa using this
      by_cases hexnw : ∃ y ∈ nw.toList, beq y item = true
      · obtain ⟨hrt, hrlen⟩ := ihnw item hbnw hexnw
        refine ⟨by simp [QuadTree.remove, hlc, hrt], ?_⟩
        simp only [QuadTree.remove, hlc, Bool.false_eq_true, if_false, hrt, if_true,
          QuadTree.len]
        omega
      · have hnwno : QuadTree.remove beq nw item = (nw, false) :=
          QuadTree.remove_no_match beq nw item
            (fun y hy => by
              cases hby : beq y item
              · rfl
              · exact absurd ⟨y, hy, hby⟩ hexnw)
        by_cases hexne : ∃ y ∈ ne.toList, beq y item = true
        · obtain ⟨hrt, hrlen⟩ := ihne item hbne hexne
          refine ⟨by simp [QuadTree.remove, hlc, hnwno, hrt], ?_⟩
          simp only [QuadTree.remove, hlc, Bool.false_eq_true, if_false, hnwno, hrt,
            if_true, QuadTree.len]
          omega
        · have hneno : QuadTree.remove beq ne item = (ne, false) :=
            QuadTree.remove_no_match beq ne item
              (fun y hy => by
                cases hby : beq y item
                · rfl
                · exact absurd ⟨y, hy, hby⟩ hexne)
          by_cases hexsw : ∃ y ∈ sw.toList, beq y item = true
          · obtain ⟨hrt, hrlen⟩ := ihsw item hbsw hexsw
            refine ⟨by simp [QuadTree.remove, hlc, hnwno, hneno, hrt], ?_⟩
            simp only [QuadTree.remove, hlc, Bool.false_eq_true, if_false, hnwno,
              hneno, hrt, if_true, QuadTree.len]
            omega
          · have hswno : QuadTree.remove beq sw item = (sw, false) :=
              QuadTree.remove_no_match beq sw item
                (fun y hy => by
                  cases hby : beq y item
                  · rfl
                  · exact absurd ⟨y, hy, hby⟩ hexsw)
            have hexse : ∃ y ∈ se.toList, beq y item = true := by
              obtain ⟨x, hx, hpx⟩ := hex
              rcases (QuadTree.mem_toList_internal x b cap pts nw ne sw se).mp hx with
                hx | hx | hx | hx | hx
              · exact absurd hpx (by simp [hnop x hx])
              · exact absurd ⟨x, hx, hpx⟩ hexnw
              · exact absurd ⟨x, hx, hpx⟩ hexne
              · exact absurd ⟨x, hx, hpx⟩ hexsw
              · exact ⟨x, hx, hpx⟩
            obtain ⟨hrt, hrlen⟩ := ihse item hbse hexse
            refine ⟨by simp [QuadTree.remove, hlc, hnwno, hneno, hswno, hrt], ?_⟩
            simp only [QuadTree.remove, hlc, Bool.false_eq_true, if_false, hnwno,
              hneno, hswno, hrt, if_true, QuadTree.len]
            omega

/-- C5 counterexample. `remove` can decrement `len()` by more than 1: after
`insert (5,5,payload 0)`, `insert (5,5,payload 1)` (both succeed under the
derived full equality) and `replace (5,5,payload 1)` (which removes the
first coordinate match and pushes the new item, leaving the node with two
equal copies of `(5,5,payload 1)`), `len()` is 2 and a single
`remove (5,5,payload 1)` returns true and leaves `len()` at 0 — the node
filter deletes both copies. -/
theorem claim_C5_counterexample :
    (QuadTree.replace Item.pt
      (QuadTree.insert itemEq Item.pt
        (QuadTree.insert itemEq Item.pt (QuadTree.new ⟨0, 0, 40, 40⟩ 4) ⟨5, 5, 0⟩).1
        ⟨5, 5, 1⟩).1 ⟨5, 5, 1⟩).1.len = 2 ∧
    (QuadTree.remove itemEq
      (QuadTree.replace Item.pt
        (QuadTree.insert itemEq Item.pt
          (QuadTree.insert itemEq Item.pt (QuadTree.new ⟨0, 0, 40, 40⟩ 4) ⟨5, 5, 0⟩).1
          ⟨5, 5, 1⟩).1 ⟨5, 5, 1⟩).1 ⟨5, 5, 1⟩).2 = true ∧
    (QuadTree.remove itemEq
      (QuadTree.replace Item.pt
        (QuadTree.insert itemEq Item.pt
          (QuadTree.insert itemEq Item.pt (QuadTree.new ⟨0, 0, 40, 40⟩ 4) ⟨5, 5, 0⟩).1
          ⟨5, 5, 1⟩).1 ⟨5, 5, 1⟩).1 ⟨5, 5, 1⟩).1.len = 0 := by
  refine ⟨?_, ?_, ?_⟩ <;>
    simp [QuadTree.insert, QuadTree.new, QuadTree.replace, QuadTree.remove,
      removeFirstByPoint, QuadTree.len, Rectangle.contains, listContains,
      itemEq, Item.pt]

/-- C5 (amended). `remove` returns false and leaves the tree unchanged when
no stored item equals the argument under the host equality; when some stored
item equals it and no node holds more than one equal copy (true of every
tree built by inserts alone), `remove` returns true and decrements `len()`
by exactly 1. In general the node filter deletes every equal copy in the
first matching node, so after a `replace` that created a node-local
duplicate the count can drop by more than 1. -/
theorem claim_C5_remove_first_match {T : Type} (beq : T → T → Bool)
    (t : QuadTree T) (item : T) :
    ((∀ x ∈ t.toList, beq x item = false) →
      QuadTree.remove beq t item = (t, false)) ∧
    (QuadTree.nodeMatchBound beq item t = true →
      (∃ x ∈ t.toList, beq x item = true) →
      (QuadTree.remove beq t item).2 = true ∧
      ((QuadTree.remove beq t item).1).len + 1 = t.len) :=
  ⟨QuadTree.remove_no_match beq t item, QuadTree.remove_success beq t item⟩

/-- A fresh node satisfies the structural invariant. -/
theorem QuadTree.new_wf {T : Type} (pt : T → Nat × Nat)
    (b : Rectangle) (cap : Nat) :
    (QuadTree.new (T := T) b cap).wf pt = true := by
  simp [QuadTree.new, QuadTree.wf]

/-- `insertNew` keeps the region it was given as the result's boundary. -/
theorem QuadTree.insertNew_boundary {T : Type} (pt : T → Nat × Nat)
    (b : Rectangle) (cap : Nat) (item : T) :
    ((QuadTree.insertNew pt b cap item).1).boundary = b := by
  rw [QuadTree.insertNew]
  split
  · split
    · rfl
    · repeat' split
      all_goals rfl
  · rfl

/-- The boundary of a fresh node is the one given to `new`. -/
theorem QuadTree.new_boundary {T : Type} (b : Rectangle) (cap : Nat) :
    (QuadTree.new (T := T) b cap).boundary = b := rfl

/-- The tree `insertNew` builds satisfies the structural invariant. -/
theorem QuadTree.insertNew_wf {T : Type} (pt : T → Nat × Nat)
    (b : Rectangle) (cap : Nat) (item : T) :
    ((QuadTree.insertNew pt b cap item).1).wf pt = true := by
  induction b, cap, item using QuadTree.insertNew.induct pt with
  | case1 b cap item hb hcap =>
    rw [QuadTree.insertNew]
    simp [hb, hcap, QuadTree.wf]
  | case2 b cap item hb hcap nw0 heq1 ih1 =>
    rw [QuadTree.insertNew]
    have bd1 := QuadTree.insertNew_boundary pt (nwRect b) cap item
    simp only [heq1] at bd1 ih1
    simp [hb, hcap, heq1, QuadTree.wf, QuadTree.new_boundary, QuadTree.new_wf,
      bd1, ih1]
  | case3 b cap item hb hcap nw0 r1 heq1 hr1 ne0 heq2 ih1 ih2 =>
    rw [QuadTree.insertNew]
    have bd1 := QuadTree.insertNew_boundary pt (nwRect b) cap item
    have bd2 := QuadTree.insertNew_boundary pt (neRect b) cap item
    simp only [heq1] at bd1 ih1
    simp only [heq2] at bd2 ih2
    simp [hb, hcap, heq1, hr1, heq2, QuadTree.wf, QuadTree.new_boundary,
      QuadTree.new_wf, bd1, bd2, ih1, ih2]
  | case4 b cap item hb hcap nw0 r1 heq1 hr1 ne0 r2 heq2 hr2 sw0 heq3 ih1 ih2 ih3 =>
    rw [QuadTree.insertNew]
    have bd1 := QuadTree.insertNew_boundary pt (nwRect b) cap item
    have bd2 := QuadTree.insertNew_boundary pt (neRect b) cap item
    have bd3 := QuadTree.insertNew_boundary pt (swRect b) cap item
    simp only [heq1] at bd1 ih1
    simp only [heq2] at bd2 ih2
    simp only [heq3] at bd3 ih3
    simp [hb, hcap, heq1, hr1, heq2, hr2, heq3, QuadTree.wf, QuadTree.new_boundary,
      QuadTree.new_wf, bd1, bd2, bd3, ih1, ih2, ih3]
  | case5 b cap item hb hcap nw0 r1 heq1 hr1 ne0 r2 heq2 hr2 sw0 r3 heq3 hr3 se0 r4 heq4 ih1 ih2 ih3 ih4 =>
    rw [QuadTree.insertNew]
    have bd1 := QuadTree.insertNew_boundary pt (nwRect b) cap item
    have bd2 := QuadTree.insertNew_boundary pt (neRect b) cap item
    have bd3 := QuadTree.insertNew_boundary pt (swRect b) cap item
    have bd4 := QuadTree.insertNew_boundary pt (seRect b) cap item
    simp only [heq1] at bd1 ih1
    simp only [heq2] at bd2 ih2
    simp only [heq3] at bd3 ih3
    simp only [heq4] at bd4 ih4
    simp [hb, hcap, heq1, hr1, heq2, hr2, heq3, hr3, heq4, QuadTree.wf,
      QuadTree.new_boundary, QuadTree.new_wf, bd1, bd2, bd3, bd4, ih1, ih2, ih3, ih4]
  | case6 b cap item hb =>
    rw [QuadTree.insertNew]
    simp [hb, QuadTree.wf]

/-- `insert` never changes the boundary of the node it is called on. -/
theorem QuadTree.insert_boundary {T : Type} (beq : T → T → Bool)
    (pt : T → Nat × Nat) (t : QuadTree T) (item : T) :
    ((QuadTree.insert beq pt t item).1).boundary = t.boundary := by
  cases t with
  | leaf b cap pts =>
    simp only [QuadTree.insert]
    repeat' split
    all_goals simp [QuadTree.boundary]
  | internal b cap pts nw ne sw se =>
    simp only [QuadTree.insert]
    repeat' split
    all_goals simp [QuadTree.boundary]

/-- `insert` preserves the structural invariant. -/
theorem QuadTree.insert_wf {T : Type} (beq : T → T → Bool)
    (pt : T → Nat × Nat) :
    ∀ (t : QuadTree T) (item : T), t.wf pt = true →
      ((QuadTree.insert beq pt t item).1).wf pt = true := by
  intro t
  induction t with
  | leaf b cap pts =>
    intro item hwf
    simp only [QuadTree.wf, List.all_eq_true] at hwf
    simp only [QuadTree.insert]
    by_cases hb : b.contains (pt item) = true
    · simp only [if_pos hb]
      by_cases hcond : pts.length < cap ∧ listContains beq pts item = false
      · simp only [if_pos hcond, QuadTree.wf, List.all_eq_true, List.mem_append,
          List.mem_singleton]
        rintro x (hx | rfl)
        · exact hwf x hx
        · exact hb
      · simp only [if_neg hcond]
        by_cases hcap : pts.length = cap
        · simp only [if_pos hcap]
          repeat' split
          all_goals
            simp [QuadTree.wf, List.all_eq_true, QuadTree.insertNew_boundary,
              QuadTree.insertNew_wf, QuadTree.new_boundary, QuadTree.new_wf] <;>
              exact hwf
        · simp only [if_neg hcap, QuadTree.wf, List.all_eq_true]
          exact hwf
    · simp only [if_neg hb, QuadTree.wf, List.all_eq_true]
      exact hwf
  | internal b cap pts nw ne sw se ihnw ihne ihsw ihse =>
    intro item hwf
    obtain ⟨hpts, hnwb, hneb, hswb, hseb, hnw, hne, hsw, hse⟩ :=
      (QuadTree.wf_internal_iff pt b cap pts nw ne sw se).mp hwf
    simp only [QuadTree.insert]
    by_cases hb : b.contains (pt item) = true
    · simp only [if_pos hb]
      by_cases hcond : pts.length < cap ∧ listContains beq pts item = false
      · simp only [if_pos hcond]
        rw [QuadTree.wf_internal_iff]
        refine ⟨?_, hnwb, hneb, hswb, hseb, hnw, hne, hsw, hse⟩
        intro x hx
        rcases List.mem_append.mp hx with hx | hx
        · exact hpts x hx
        · rw [List.mem_singleton.mp hx]
          exact hb
      · simp only [if_neg hcond]
        by_cases hcap : pts.length = cap
        · simp only [if_pos hcap]
          repeat' split
          all_goals rw [QuadTree.wf_internal_iff]
          all_goals
            refine ⟨hpts, ?_, ?_, ?_, ?_, ?_, ?_, ?_, ?_⟩ <;>
              first
                | assumption
                | (rw [QuadTree.insert_boundary]; assumption)
                | exact ihnw item hnw
                | exact ihne item hne
                | exact ihsw item hsw
                | exact ihse item hse
        · simp only [if_neg hcap]
          exact hwf
    · simp only [if_neg hb]
      exact hwf

/-- `replace` never changes the boundary of the node it is called on. -/
theorem QuadTree.replace_boundary {T : Type} (pt : T → Nat × Nat)
    (t : QuadTree T) (item : T) :
    ((QuadTree.replace pt t item).1).boundary = t.boundary := by
  cases t with
  | leaf b cap pts =>
    simp only [QuadTree.replace]
    repeat' split
    all_goals simp [QuadTree.boundary]
  | internal b cap pts nw ne sw se =>
    simp only [QuadTree.replace]
    repeat' split
    all_goals simp [QuadTree.boundary]

/-- `replace` preserves the structural invariant. -/
theorem QuadTree.replace_wf {T : Type} (pt : T → Nat × Nat) :
    ∀ (t : QuadTree T) (item : T), t.wf pt = true →
      ((QuadTree.replace pt t item).1).wf pt = true := by
  intro t
  induction t with
  | leaf b cap pts =>
    intro item hwf
    simp only [QuadTree.wf, List.all_eq_true] at hwf
    simp only [QuadTree.replace]
    by_cases hb : b.contains (pt item) = true
    · simp only [if_pos hb]
      rcases hr : removeFirstByPoint pt item pts with _ | ⟨old, rest⟩
      · simp only [QuadTree.wf, List.all_eq_true]
        exact hwf
      · obtain ⟨-, hperm⟩ := removeFirstByPoint_some pt item pts old rest hr
        simp only [QuadTree.wf, List.all_eq_true, List.mem_append, List.mem_singleton]
        rintro x (hx | rfl)
        · exact hwf x (hperm.mem_iff.mpr (List.mem_cons_of_mem old hx))
        · exact hb
    · simp only [if_neg hb, QuadTree.wf, List.all_eq_true]
      exact hwf
  | internal b cap pts nw ne sw se ihnw ihne ihsw ihse =>
    intro item hwf
    obtain ⟨hpts, hnwb, hneb, hswb, hseb, hnw, hne, hsw, hse⟩ :=
      (QuadTree.wf_internal_iff pt b cap pts nw ne sw se).mp hwf
    simp only [QuadTree.replace]
    by_cases hb : b.contains (pt item) = true
    · simp only [if_pos hb]
      rcases hr : removeFirstByPoint pt item pts with _ | ⟨old, rest⟩
      · simp only [hr]
        repeat' split
        all_goals rw [QuadTree.wf_internal_iff]
        all_goals
          refine ⟨hpts, ?_, ?_, ?_, ?_, ?_, ?_, ?_, ?_⟩ <;>
            first
              | assumption
              | (rw [QuadTree.replace_boundary]; assumption)
              | exact ihnw item hnw
              | exact ihne item hne
              | exact ihsw item hsw
              | exact ihse item hse
      · obtain ⟨-, hperm⟩ := removeFirstByPoint_some pt item pts old rest hr
        simp only [hr]
        rw [QuadTree.wf_internal_iff]
        refine ⟨?_, hnwb, hneb, hswb, hseb, hnw, hne, hsw, hse⟩
        intro x hx
        rcases List.mem_append.mp hx with hx | hx
        · exact hpts x (hperm.mem_iff.mpr (List.mem_cons_of_mem old hx))
        · rw [List.mem_singleton.mp hx]
          exact hb
    · simp only [if_neg hb]
      exact hwf

/-- `remove` never changes the boundary of the node it is called on. -/
theorem QuadTree.remove_boundary {T : Type} (beq : T → T → Bool)
    (t : QuadTree T) (item : T) :
    ((QuadTree.remove beq t item).1).boundary = t.boundary := by
  cases t with
  | leaf b cap pts =>
    simp only [QuadTree.remove]
    repeat' split
    all_goals simp [QuadTree.boundary]
  | internal b cap pts nw ne sw se =>
    simp only [QuadTree.remove]
    repeat' split
    all_goals simp [QuadTree.boundary]

/-- `remove` preserves the structural invariant. -/
theorem QuadTree.remove_wf {T : Type} (beq : T → T → Bool)
    (pt : T → Nat × Nat) :
    ∀ (t : QuadTree T) (item : T), t.wf pt = true →
      ((QuadTree.remove beq t item).1).wf pt = true := by
  intro t
  induction t with
  | leaf b cap pts =>
    intro item hwf
    simp only [QuadTree.wf, List.all_eq_true] at hwf
    simp only [QuadTree.remove]
    by_cases hlc : listContains beq pts item = true
    · simp only [if_pos hlc, QuadTree.wf, List.all_eq_true]
      intro x hx
      exact hwf x (List.mem_of_mem_filter hx)
    · simp only [if_neg hlc, QuadTree.wf, List.all_eq_true]
      exact hwf
  | internal b cap pts nw ne sw se ihnw ihne ihsw ihse =>
    intro item hwf
    obtain ⟨hpts, hnwb, hneb, hswb, hseb, hnw, hne, hsw, hse⟩ :=
      (QuadTree.wf_internal_iff pt b cap pts nw ne sw se).mp hwf
    simp only [QuadTree.remove]
    by_cases hlc : listContains beq pts item = true
    · simp only [if_pos hlc]
      rw [QuadTree.wf_internal_iff]
      refine ⟨?_, hnwb, hneb, hswb, hseb, hnw, hne, hsw, hse⟩
      intro x hx
      exact hpts x (List.mem_of_mem_filter hx)
    · simp only [if_neg hlc]
      repeat' split
      all_goals rw [QuadTree.wf_internal_iff]
      all_goals
        refine ⟨hpts, ?_, ?_, ?_, ?_, ?_, ?_, ?_, ?_⟩ <;>
          first
            | assumption
            | (rw [QuadTree.remove_boundary]; assumption)
            | exact ihnw item hnw
            | exact ihne item hne
            | exact ihsw item hsw
            | exact ihse item hse

/-- Any sequence of inserts starting from a well-formed tree (in particular
from `QuadTree::new`) yields a well-formed tree, so the invariant assumed by
the `replace` and `query` theorems holds of every tree the API builds. -/
theorem QuadTree.insertList_wf {T : Type} (beq : T → T → Bool)
    (pt : T → Nat × Nat) :
    ∀ (items : List T) (t : QuadTree T), t.wf pt = true →
      ((QuadTree.insertList beq pt t items).1).wf pt = true := by
  intro items
  induction items with
  | nil => intro t hwf; exact hwf
  | cons x xs ih =>
    intro t hwf
    simp only [QuadTree.insertList]
    exact ih (QuadTree.insert beq pt t x).1 (QuadTree.insert_wf beq pt t x hwf)

end EzQuadTree
